import Mathlib

/-!
Verification of the chunking, extraction and pipeline logic of the
PdfToAudioBook repository (src/app.py), via a shallow embedding of the
Python functions on lists of characters.
-/

namespace PdfToAudiobook

/-- Two-character paragraph separator, the Python string literal of two
line feeds used throughout app.py. -/
def sep : List Char := ['\n', '\n']

/-- Module-level constant MAX_CHARS = 4500 from app.py. -/
def MAX_CHARS : Nat := 4500

/-- Embedding of Python text.split with the two-character separator:
leftmost, non-overlapping splitting, never returning an empty list
(splitting the empty string yields one empty part, as in Python). -/
def splitOnSep : List Char → List (List Char)
  | [] => [[]]
  | [c] => [[c]]
  | c :: d :: rest =>
    if c = '\n' ∧ d = '\n' then [] :: splitOnSep rest
    else
      match splitOnSep (d :: rest) with
      | [] => [[c]]
      | h :: t => (c :: h) :: t

/-- Embedding of the Python separator.join call: concatenate parts with
the two-character separator between consecutive parts. -/
def joinSep : List (List Char) → List Char
  | [] => []
  | [p] => p
  | p :: q :: ps => p ++ sep ++ joinSep (q :: ps)

/-- Fuel-indexed helper for the slicing loop of chunk_text; the fuel is
only there to make the recursion structural and is irrelevant as soon as
it is at least the length of the sliced paragraph. -/
def slicesF : Nat → Nat → List Char → List (List Char)
  | _, _, [] => []
  | _, 0, _ => []
  | 0, _, _ => []
  | fuel + 1, max_chars, p => p.take max_chars :: slicesF fuel max_chars (p.drop max_chars)

/-- Embedding of the slicing loop of chunk_text: for i in
range(0, len(p), max_chars): yield p[i:i + max_chars]. Total for
max_chars = 0 by returning no slices (Python would reject that step). -/
def slices (max_chars : Nat) (p : List Char) : List (List Char) :=
  slicesF p.length max_chars p

theorem slicesF_congr (max_chars : Nat) :
    ∀ (f1 f2 : Nat) (p : List Char), p.length ≤ f1 → p.length ≤ f2 →
      slicesF f1 max_chars p = slicesF f2 max_chars p := by
  intro f1
  induction f1 with
  | zero =>
    intro f2 p h1 _
    have : p = [] := List.eq_nil_of_length_eq_zero (Nat.le_zero.mp h1)
    subst this
    simp [slicesF]
  | succ f1 ih =>
    intro f2 p h1 h2
    cases p with
    | nil => simp [slicesF]
    | cons c rest =>
      cases max_chars with
      | zero => simp [slicesF]
      | succ m =>
        cases f2 with
        | zero => simp at h2
        | succ f2 =>
          simp only [slicesF]
          congr 1
          simp only [List.length_cons] at h1 h2
          apply ih
          · simp only [List.length_drop, List.length_cons]
            omega
          · simp only [List.length_drop, List.length_cons]
            omega

/-- Unfolding equation for slices, matching the Python loop: an empty
paragraph (or a zero budget) produces no slices, otherwise the first
max_chars characters form a slice and the rest is sliced in turn. -/
theorem slices_eq (max_chars : Nat) (p : List Char) :
    slices max_chars p =
      if max_chars = 0 ∨ p = [] then []
      else p.take max_chars :: slices max_chars (p.drop max_chars) := by
  cases p with
  | nil => simp [slices, slicesF]
  | cons c rest =>
    cases max_chars with
    | zero => simp [slices, slicesF]
    | succ m =>
      simp only [List.length_cons, slices, slicesF]
      have h1 : (List.drop (m + 1) (c :: rest)).length ≤ rest.length := by
        simp only [List.length_drop, List.length_cons]
        omega
      rw [slicesF_congr (m + 1) rest.length (List.drop (m + 1) (c :: rest)).length _ h1 (Nat.le_refl _)]
      simp

/-- Embedding of the loop body of chunk_text in app.py: the state is the
remaining paragraph list and the accumulator string, the result is the
list of all chunks the generator still yields from that state. -/
def chunkLoop (max_chars : Nat) : List (List Char) → List Char → List (List Char)
  | [], chunk => if chunk = [] then [] else [chunk]
  | p :: ps, chunk =>
    if chunk.length + p.length + 2 ≤ max_chars then
      chunkLoop max_chars ps (if chunk = [] then p else chunk ++ sep ++ p)
    else
      chunk :: (if max_chars < p.length then
          slices max_chars p ++ chunkLoop max_chars ps []
        else
          chunkLoop max_chars ps p)

/-- Embedding of chunk_text(text, max_chars) from app.py: split the text
into paragraphs and run the accumulator loop started empty. -/
def chunk_text (text : List Char) (max_chars : Nat) : List (List Char) :=
  chunkLoop max_chars (splitOnSep text) []

/-- Tag a run of slices of one oversized paragraph: the first slice is
marked with whether a paragraph boundary precedes it (the accumulator
that was just flushed was non-empty), later slices carry no boundary. -/
def tagSlices (b : Bool) : List (List Char) → List (Bool × List Char)
  | [] => []
  | s :: ss => (b, s) :: ss.map (fun t => (false, t))

/-- Instrumented chunk_text loop: each yielded chunk carries a flag
telling whether a paragraph boundary of the original text stands
immediately before this chunk's contents. The extra boolean argument
records whether a separator of the original text is pending before the
contents of the current (still empty) accumulator. -/
def tchunkLoop (max_chars : Nat) :
    List (List Char) → List Char → Bool → List (Bool × List Char)
  | [], chunk, pend => if chunk = [] then [] else [(pend, chunk)]
  | p :: ps, chunk, pend =>
    if chunk.length + p.length + 2 ≤ max_chars then
      tchunkLoop max_chars ps (if chunk = [] then p else chunk ++ sep ++ p) pend
    else
      (pend, chunk) :: (if max_chars < p.length then
          tagSlices (decide (chunk ≠ [])) (slices max_chars p) ++
            tchunkLoop max_chars ps [] true
        else
          tchunkLoop max_chars ps p (decide (chunk ≠ [])))

/-- Instrumented chunk_text: the same chunks as chunk_text, each tagged
with whether a paragraph boundary was preserved just before it. -/
def tchunk_text (text : List Char) (max_chars : Nat) : List (Bool × List Char) :=
  tchunkLoop max_chars (splitOnSep text) [] false

/-- Rejoin a tagged chunk stream: re-insert the two-character separator
exactly before chunks whose boundary flag is set, nothing elsewhere. -/
def joinTagged : List (Bool × List Char) → List Char
  | [] => []
  | (b, c) :: rest => (if b then sep else []) ++ c ++ joinTagged rest

/-- Embedding of extract_text from app.py, with the document modelled as
the ordered list of per-page extraction results: the loop appends each
non-empty page text, then the pages are joined with the separator. -/
def extract_text (pages : List (List Char)) : List Char :=
  joinSep (pages.foldl (fun acc txt => if txt = [] then acc else acc ++ [txt]) [])

/-- Errors of the pipeline stages of pdf_to_audiobook: a failed
synthesis call (carrying the 1-based chunk index and the cause) or a
failed export. -/
inductive PipeError where
  | synthesisFailure (chunkIndex : Nat) (cause : String)
  | exportFailure (cause : String)
deriving DecidableEq

/-- Embedding of the synthesis loop of pdf_to_audiobook: chunks are
synthesized strictly in order, starting at index 1; the first failing
call aborts the whole loop with its error and no later call is made. -/
def processChunks (synth : Nat → List Char → Except String (List Nat)) :
    Nat → List (List Char) → Except PipeError (List (List Nat))
  | _, [] => Except.ok []
  | i, c :: cs =>
    match synth i c with
    | Except.error e => Except.error (PipeError.synthesisFailure i e)
    | Except.ok seg =>
      match processChunks synth (i + 1) cs with
      | Except.error e => Except.error e
      | Except.ok segs => Except.ok (seg :: segs)

/-- Embedding of pdf_to_audiobook from app.py: chunk the extracted text
with MAX_CHARS, synthesize every chunk in order, and only when all of
them succeeded export the concatenated audio. The external synthesis
call and the export call are passed in as functions. -/
def pdf_to_audiobook (full_text : List Char)
    (synth : Nat → List Char → Except String (List Nat))
    (exportFn : List Nat → Except String Unit) : Except PipeError Unit :=
  match processChunks synth 1 (chunk_text full_text MAX_CHARS) with
  | Except.error e => Except.error e
  | Except.ok segs =>
    match exportFn segs.flatten with
    | Except.error e => Except.error (PipeError.exportFailure e)
    | Except.ok _ => Except.ok ()

theorem joinSep_cons (p : List Char) (ps : List (List Char)) :
    joinSep (p :: ps) = p ++ (if ps = [] then [] else sep ++ joinSep ps) := by
  cases ps with
  | nil => simp [joinSep]
  | cons q ps => simp [joinSep, List.append_assoc]

theorem splitOnSep_ne_nil (t : List Char) : splitOnSep t ≠ [] := by
  match t with
  | [] => simp [splitOnSep]
  | [c] => simp [splitOnSep]
  | c :: d :: rest =>
    simp only [splitOnSep]
    split
    · simp
    · rcases hs : splitOnSep (d :: rest) with _ | ⟨h, t'⟩ <;> simp [hs]

/-- Splitting and rejoining with the separator is the identity on the
original text: the paragraph decomposition loses no characters. -/
theorem joinSep_splitOnSep (t : List Char) : joinSep (splitOnSep t) = t := by
  induction t using splitOnSep.induct with
  | case1 => simp [splitOnSep, joinSep]
  | case2 c => simp [splitOnSep, joinSep]
  | case3 c d rest hcd ih =>
    obtain ⟨hc, hd⟩ := hcd
    subst hc; subst hd
    have hrw : splitOnSep ('\n' :: '\n' :: rest) = [] :: splitOnSep rest := by
      simp [splitOnSep]
    rw [hrw, joinSep_cons, if_neg (splitOnSep_ne_nil rest), ih]
    simp [sep]
  | case4 c d rest hne hs ih => exact absurd hs (splitOnSep_ne_nil (d :: rest))
  | case5 c d rest hne h t hs ih =>
    simp only [splitOnSep, if_neg hne, hs]
    rw [hs] at ih
    cases t with
    | nil =>
      simp only [joinSep] at ih ⊢
      simp [ih]
    | cons q t' =>
      simp only [joinSep] at ih ⊢
      rw [List.cons_append, List.cons_append, ih]

theorem joinSep_append (xs ys : List (List Char)) :
    joinSep (xs ++ ys) =
      joinSep xs ++ (if xs = [] ∨ ys = [] then [] else sep) ++ joinSep ys := by
  induction xs with
  | nil => simp [joinSep]
  | cons x xs ih =>
    by_cases hxs : xs = []
    · subst hxs
      cases ys with
      | nil => simp [joinSep]
      | cons y ys' => simp [joinSep, joinSep_cons, List.append_assoc]
    · by_cases hys : ys = []
      · subst hys
        simp [joinSep_cons, hxs, joinSep]
      · have hxy : xs ++ ys ≠ [] := by simp [hxs]
        rw [List.cons_append, joinSep_cons, if_neg hxy, ih,
          joinSep_cons, if_neg hxs]
        simp [hxs, hys, List.append_assoc]

theorem joinSep_length_ge (parts : List (List Char)) :
    (parts.map List.length).sum ≤ (joinSep parts).length := by
  induction parts with
  | nil => simp
  | cons p ps ih =>
    rw [joinSep_cons]
    by_cases hps : ps = []
    · subst hps; simp
    · rw [if_neg hps]
      simp only [List.map_cons, List.sum_cons, List.length_append]
      have : (sep ++ joinSep ps).length = 2 + (joinSep ps).length := by
        simp [sep]
        omega
      omega

theorem mem_slicesF_length {max_chars : Nat} :
    ∀ (fuel : Nat) (p c : List Char), c ∈ slicesF fuel max_chars p →
      c.length ≤ max_chars := by
  intro fuel
  induction fuel with
  | zero =>
    intro p c h
    cases p <;> cases max_chars <;> simp [slicesF] at h
  | succ fuel ih =>
    intro p c h
    cases p with
    | nil => simp [slicesF] at h
    | cons a rest =>
      cases max_chars with
      | zero => simp [slicesF] at h
      | succ m =>
        simp only [slicesF, List.mem_cons] at h
        rcases h with h | h
        · subst h
          simp
        · exact ih _ c h

theorem mem_slices_length {max_chars : Nat} {p c : List Char}
    (h : c ∈ slices max_chars p) : c.length ≤ max_chars :=
  mem_slicesF_length p.length p c h

theorem slicesF_flatten {max_chars : Nat} (hM : 1 ≤ max_chars) :
    ∀ (fuel : Nat) (p : List Char), p.length ≤ fuel →
      (slicesF fuel max_chars p).flatten = p := by
  intro fuel
  induction fuel with
  | zero =>
    intro p hp
    have : p = [] := List.eq_nil_of_length_eq_zero (Nat.le_zero.mp hp)
    subst this
    simp [slicesF]
  | succ fuel ih =>
    intro p hp
    cases p with
    | nil => simp [slicesF]
    | cons a rest =>
      cases max_chars with
      | zero => omega
      | succ m =>
        simp only [slicesF, List.flatten_cons]
        rw [ih]
        · exact List.take_append_drop (m + 1) (a :: rest)
        · simp only [List.length_drop, List.length_cons]
          simp only [List.length_cons] at hp
          omega

/-- Slicing an oversized paragraph loses no characters: the slices
concatenate back to the paragraph. -/
theorem slices_flatten {max_chars : Nat} (hM : 1 ≤ max_chars) (p : List Char) :
    (slices max_chars p).flatten = p :=
  slicesF_flatten hM p.length p (Nat.le_refl _)

theorem slices_ne_nil {max_chars : Nat} (hM : 1 ≤ max_chars) {p : List Char}
    (hp : p ≠ []) : slices max_chars p ≠ [] := by
  rw [slices_eq]
  have : ¬(max_chars = 0 ∨ p = []) := by
    rintro (h | h)
    · omega
    · exact hp h
  simp [this]

theorem slicesF_length_le {max_chars : Nat} (hM : 1 ≤ max_chars) :
    ∀ (fuel : Nat) (p : List Char), p.length ≤ fuel →
      (slicesF fuel max_chars p).length ≤ p.length := by
  intro fuel
  induction fuel with
  | zero =>
    intro p hp
    have : p = [] := List.eq_nil_of_length_eq_zero (Nat.le_zero.mp hp)
    subst this
    simp [slicesF]
  | succ fuel ih =>
    intro p hp
    cases p with
    | nil => simp [slicesF]
    | cons a rest =>
      cases max_chars with
      | zero => omega
      | succ m =>
        simp only [slicesF, List.length_cons]
        have hd : (List.drop (m + 1) (a :: rest)).length ≤ fuel := by
          simp only [List.length_drop, List.length_cons]
          simp only [List.length_cons] at hp
          omega
        have := ih (List.drop (m + 1) (a :: rest)) hd
        simp only [List.length_drop, List.length_cons] at this ⊢
        omega

theorem slices_length_le {max_chars : Nat} (hM : 1 ≤ max_chars) (p : List Char) :
    (slices max_chars p).length ≤ p.length :=
  slicesF_length_le hM p.length p (Nat.le_refl _)

theorem mem_slicesF_drop_take {max_chars : Nat} :
    ∀ (fuel : Nat) (p c : List Char), c ∈ slicesF fuel max_chars p →
      ∃ i, c = (p.drop i).take max_chars := by
  intro fuel
  induction fuel with
  | zero =>
    intro p c h
    cases p <;> cases max_chars <;> simp [slicesF] at h
  | succ fuel ih =>
    intro p c h
    cases p with
    | nil => simp [slicesF] at h
    | cons a rest =>
      cases max_chars with
      | zero => simp [slicesF] at h
      | succ m =>
        simp only [slicesF, List.mem_cons] at h
        rcases h with h | h
        · exact ⟨0, by simpa using h⟩
        · obtain ⟨i, hi⟩ := ih _ c h
          refine ⟨m + 1 + i, ?_⟩
          rw [hi, List.drop_drop]

theorem mem_slices_drop_take {max_chars : Nat} {p c : List Char}
    (h : c ∈ slices max_chars p) : ∃ i, c = (p.drop i).take max_chars :=
  mem_slicesF_drop_take p.length p c h

/-- Loop invariant for the chunk size bound: as long as the accumulator
respects the budget, every chunk the loop still yields respects it. -/
theorem chunkLoop_mem_length (max_chars : Nat) :
    ∀ (ps : List (List Char)) (chunk : List Char), chunk.length ≤ max_chars →
      ∀ c ∈ chunkLoop max_chars ps chunk, c.length ≤ max_chars := by
  intro ps
  induction ps with
  | nil =>
    intro chunk hch c hc
    simp only [chunkLoop] at hc
    split at hc
    · simp at hc
    · simp only [List.mem_singleton] at hc
      subst hc
      exact hch
  | cons p ps ih =>
    intro chunk hch c hc
    simp only [chunkLoop] at hc
    split at hc
    · rename_i hfit
      refine ih _ ?_ c hc
      split
      · rename_i hnil
        subst hnil
        simp only [List.length_nil, Nat.zero_add] at hfit
        omega
      · simp only [List.length_append, sep, List.length_cons, List.length_nil]
        omega
    · rename_i hfit
      simp only [List.mem_cons] at hc
      rcases hc with hc | hc
      · subst hc
        exact hch
      · split at hc
        · rename_i hbig
          rcases List.mem_append.mp hc with hc | hc
          · exact mem_slices_length hc
          · exact ih [] (by simp) c hc
        · rename_i hbig
          refine ih p ?_ c hc
          omega

/-- Loop bound for termination accounting: the number of chunks the loop
still yields is bounded by one final chunk plus, per paragraph, one
flush and at most one slice per character. -/
theorem chunkLoop_count_le (max_chars : Nat) (hM : 1 ≤ max_chars) :
    ∀ (ps : List (List Char)) (chunk : List Char),
      (chunkLoop max_chars ps chunk).length ≤
        1 + ps.length + (ps.map List.length).sum := by
  intro ps
  induction ps with
  | nil =>
    intro chunk
    simp only [chunkLoop]
    split <;> simp
  | cons p ps ih =>
    intro chunk
    simp only [chunkLoop]
    split
    · have := ih (if chunk = [] then p else chunk ++ sep ++ p)
      simp only [List.length_cons, List.map_cons, List.sum_cons]
      omega
    · simp only [List.length_cons, List.map_cons, List.sum_cons]
      split
      · rename_i hbig
        have h1 := slices_length_le hM p
        have h2 := ih ([] : List Char)
        simp only [List.length_append]
        omega
      · have := ih p
        omega

theorem joinTagged_append (A B : List (Bool × List Char)) :
    joinTagged (A ++ B) = joinTagged A ++ joinTagged B := by
  induction A with
  | nil => simp [joinTagged]
  | cons a A ih =>
    obtain ⟨b, c⟩ := a
    simp [joinTagged, ih, List.append_assoc]

theorem joinTagged_map_false (ss : List (List Char)) :
    joinTagged (ss.map (fun t => (false, t))) = ss.flatten := by
  induction ss with
  | nil => simp [joinTagged]
  | cons s ss ih => simp [joinTagged, ih]

theorem joinTagged_tagSlices (b : Bool) {ss : List (List Char)} (h : ss ≠ []) :
    joinTagged (tagSlices b ss) = (if b then sep else []) ++ ss.flatten := by
  cases ss with
  | nil => exact absurd rfl h
  | cons s ss =>
    simp [tagSlices, joinTagged, joinTagged_map_false, List.append_assoc]

theorem tagSlices_map_snd (b : Bool) (ss : List (List Char)) :
    (tagSlices b ss).map Prod.snd = ss := by
  cases ss with
  | nil => simp [tagSlices]
  | cons s ss => simp [tagSlices, List.map_map, Function.comp]

/-- Erasing the boundary tags of the instrumented loop gives back the
plain chunk loop: the instrumentation yields the same chunks. -/
theorem tchunkLoop_map_snd (max_chars : Nat) :
    ∀ (ps : List (List Char)) (chunk : List Char) (pend : Bool),
      (tchunkLoop max_chars ps chunk pend).map Prod.snd =
        chunkLoop max_chars ps chunk := by
  intro ps
  induction ps with
  | nil =>
    intro chunk pend
    simp only [tchunkLoop, chunkLoop]
    split <;> simp
  | cons p ps ih =>
    intro chunk pend
    simp only [tchunkLoop, chunkLoop]
    split
    · exact ih _ pend
    · split
      · simp [List.map_append, tagSlices_map_snd, ih]
      · simp [ih]

/-- Reconstruction invariant of the instrumented loop: when every
remaining paragraph is non-empty, rejoining the tagged chunks restores
the pending separator, the accumulator, the separator between the
accumulator and the remaining paragraphs, and the remaining paragraphs
joined by separators. -/
theorem tchunkLoop_join (max_chars : Nat) (hM : 1 ≤ max_chars) :
    ∀ (ps : List (List Char)) (chunk : List Char) (pend : Bool),
      (∀ p ∈ ps, p ≠ []) →
      joinTagged (tchunkLoop max_chars ps chunk pend) =
        if ps = [] ∧ chunk = [] then []
        else
          (if pend then sep else []) ++ chunk ++
            (if chunk = [] ∨ ps = [] then [] else sep) ++ joinSep ps := by
  intro ps
  induction ps with
  | nil =>
    intro chunk pend _
    simp only [tchunkLoop]
    by_cases hch : chunk = []
    · simp [hch, joinTagged]
    · simp [hch, joinTagged, joinSep]
  | cons p ps ih =>
    intro chunk pend hall
    have hp : p ≠ [] := hall p (List.mem_cons_self p ps)
    have hall' : ∀ q ∈ ps, q ≠ [] := fun q hq => hall q (List.mem_cons_of_mem p hq)
    simp only [tchunkLoop]
    split
    · rename_i hfit
      rw [ih _ pend hall']
      by_cases hch : chunk = [] <;> by_cases hps : ps = [] <;>
        simp [hch, hps, hp, sep, joinSep, joinSep_cons, List.append_assoc]
    · rename_i hfit
      have hcons : ∀ (X : List (Bool × List Char)),
          joinTagged ((pend, chunk) :: X) =
            (if pend then sep else []) ++ chunk ++ joinTagged X := by
        intro X
        simp [joinTagged, List.append_assoc]
      split
      · rename_i hbig
        rw [hcons, joinTagged_append,
          joinTagged_tagSlices _ (slices_ne_nil hM hp),
          slices_flatten hM p, ih [] true hall']
        by_cases hch : chunk = [] <;> by_cases hps : ps = [] <;>
          simp [hch, hps, hp, sep, joinSep, joinSep_cons, List.append_assoc]
      · rename_i hbig
        rw [hcons, ih p (decide (chunk ≠ [])) hall']
        by_cases hch : chunk = [] <;> by_cases hps : ps = [] <;>
          simp [hch, hps, hp, sep, joinSep, joinSep_cons, List.append_assoc]

/-- Shape of a chunk produced by the loop: the empty artifact chunk, a
contiguous run of paragraphs joined by separators, or a raw slice of a
single paragraph. -/
def ChunkShape (paras : List (List Char)) (max_chars : Nat) (c : List Char) : Prop :=
  c = [] ∨ (∃ pre mid suf, paras = pre ++ mid ++ suf ∧ c = joinSep mid) ∨
    (∃ p, p ∈ paras ∧ ∃ i, c = (p.drop i).take max_chars)

theorem chunkLoop_shape (max_chars : Nat) (paras : List (List Char)) :
    ∀ (ps : List (List Char)) (chunk : List Char),
      (∃ pre0, paras = pre0 ++ ps) →
      (chunk = [] ∨
        ∃ pre mid, paras = pre ++ mid ++ ps ∧ mid ≠ [] ∧ chunk = joinSep mid) →
      ∀ c ∈ chunkLoop max_chars ps chunk, ChunkShape paras max_chars c := by
  intro ps
  induction ps with
  | nil =>
    intro chunk hpre hch c hc
    simp only [chunkLoop] at hc
    split at hc
    · simp at hc
    · rename_i hne
      simp only [List.mem_singleton] at hc
      subst hc
      rcases hch with h | ⟨pre, mid, hmid, hne2, hcj⟩
      · exact absurd h hne
      · exact Or.inr (Or.inl ⟨pre, mid, [], hmid, hcj⟩)
  | cons p ps ih =>
    intro chunk hpre hch c hc
    obtain ⟨pre0, hpre0⟩ := hpre
    simp only [chunkLoop] at hc
    split at hc
    · rename_i hfit
      refine ih _ ⟨pre0 ++ [p], by simp [hpre0, List.append_assoc]⟩ ?_ c hc
      by_cases hcn : chunk = []
      · rw [if_pos hcn]
        refine Or.inr ⟨pre0, [p], ?_, by simp, by simp [joinSep]⟩
        simp [hpre0, List.append_assoc]
      · rw [if_neg hcn]
        rcases hch with h | ⟨pre, mid, hmid, hne2, hcj⟩
        · exact absurd h hcn
        · refine Or.inr ⟨pre, mid ++ [p], ?_, by simp, ?_⟩
          · simp [hmid, List.append_assoc]
          · rw [joinSep_append mid [p]]
            simp [hne2, hcj, joinSep]
    · rename_i hfit
      simp only [List.mem_cons] at hc
      rcases hc with rfl | hc
      · rcases hch with h | ⟨pre, mid, hmid, hne2, hcj⟩
        · exact Or.inl h
        · exact Or.inr (Or.inl ⟨pre, mid, p :: ps, hmid, hcj⟩)
      · split at hc
        · rename_i hbig
          rcases List.mem_append.mp hc with hc | hc
          · obtain ⟨i, hi⟩ := mem_slices_drop_take hc
            exact Or.inr (Or.inr ⟨p, by simp [hpre0], i, hi⟩)
          · exact ih [] ⟨pre0 ++ [p], by simp [hpre0, List.append_assoc]⟩
              (Or.inl rfl) c hc
        · rename_i hbig
          refine ih p ⟨pre0 ++ [p], by simp [hpre0, List.append_assoc]⟩ ?_ c hc
          exact Or.inr ⟨pre0, [p], by simp [hpre0, List.append_assoc], by simp,
            by simp [joinSep]⟩

theorem joinSep_middle_part (pre mid suf : List (List Char)) :
    ∃ l r, l ++ joinSep mid ++ r = joinSep (pre ++ mid ++ suf) := by
  rw [List.append_assoc, joinSep_append pre (mid ++ suf), joinSep_append mid suf]
  exact ⟨joinSep pre ++ (if pre = [] ∨ mid ++ suf = [] then [] else sep),
    (if mid = [] ∨ suf = [] then [] else sep) ++ joinSep suf,
    by simp [List.append_assoc]⟩

theorem drop_take_part (p : List Char) (i max_chars : Nat) :
    ∃ l r, l ++ (p.drop i).take max_chars ++ r = p := by
  refine ⟨p.take i, (p.drop i).drop max_chars, ?_⟩
  rw [List.append_assoc, List.take_append_drop, List.take_append_drop]

/-- Synthesis loop failure: if every chunk before index k synthesizes
and chunk k fails, the loop stops with that chunk's failure. -/
theorem processChunks_error (synth : Nat → List Char → Except String (List Nat)) :
    ∀ (cs : List (List Char)) (i k : Nat) (e : String), k < cs.length →
      (∀ j, j < k → ∃ s, synth (i + j) (cs.getD j []) = Except.ok s) →
      synth (i + k) (cs.getD k []) = Except.error e →
      processChunks synth i cs =
        Except.error (PipeError.synthesisFailure (i + k) e) := by
  intro cs
  induction cs with
  | nil =>
    intro i k e hk
    simp at hk
  | cons c cs ih =>
    intro i k e hk hok hfail
    cases k with
    | zero =>
      simp only [List.getD_cons_zero, Nat.add_zero] at hfail
      simp only [processChunks, hfail, Nat.add_zero]
    | succ k =>
      obtain ⟨s, hs⟩ := hok 0 (Nat.succ_pos k)
      simp only [List.getD_cons_zero, Nat.add_zero] at hs
      have hrec : processChunks synth (i + 1) cs =
          Except.error (PipeError.synthesisFailure (i + 1 + k) e) := by
        refine ih (i + 1) k e (by simpa using hk) ?_ ?_
        · intro j hj
          obtain ⟨s2, hs2⟩ := hok (j + 1) (Nat.succ_lt_succ hj)
          refine ⟨s2, ?_⟩
          rw [show i + 1 + j = i + (j + 1) by omega]
          simpa using hs2
        · rw [show i + 1 + k = i + (k + 1) by omega]
          simpa using hfail
      simp only [processChunks, hs, hrec]
      rw [show i + 1 + k = i + (k + 1) by omega]

theorem foldl_append_filter (ps : List (List Char)) :
    ∀ acc : List (List Char),
      ps.foldl (fun acc txt => if txt = [] then acc else acc ++ [txt]) acc =
        acc ++ ps.filter (fun t => t ≠ []) := by
  induction ps with
  | nil => intro acc; simp
  | cons p ps ih =>
    intro acc
    simp only [List.foldl_cons, List.filter_cons]
    by_cases hp : p = []
    · subst hp
      simp [ih]
    · rw [if_neg hp, ih]
      simp [hp, List.append_assoc]

/-- C1: for every input text and every maximum chunk size M > 0, every
chunk yielded by chunk_text(text, M) — accumulated chunks as well as
slices of oversized paragraphs — has length at most M. -/
theorem chunk_text_mem_length_le (text : List Char) (max_chars : Nat)
    (_hM : 0 < max_chars) :
    ∀ c ∈ chunk_text text max_chars, c.length ≤ max_chars :=
  chunkLoop_mem_length max_chars (splitOnSep text) [] (by simp)

theorem chunk_text_mem_length_le_witness :
    ( "Para2 that".toList : List Char).length ≤ 10 :=
  chunk_text_mem_length_le ( "Para1.\n\nPara2 that is long.".toList) 10
    (by decide) ( "Para2 that".toList) (by decide)

/-- C2 counterexample: for the text consisting of a single two-character
separator and M = 10, chunk_text yields no chunks at all although the
text is non-empty, so no re-insertion of separators between chunks can
reconstruct the input. -/
theorem chunk_text_reconstruct_counterexample :
    chunk_text ( "\n\n".toList) 10 = [] ∧ ( "\n\n".toList : List Char) ≠ [] := by
  decide

/-- C2 (amended): for every M ≥ 1 and every input text whose paragraph
split contains no empty paragraph, re-inserting the two-character
separator exactly where a paragraph boundary was preserved between
chunks (the tagged chunk stream) and nothing between slices of an
oversized paragraph reconstructs the input text exactly; and the tagged
stream carries exactly the chunks of chunk_text. -/
theorem tchunk_text_reconstructs (text : List Char) (max_chars : Nat)
    (hM : 1 ≤ max_chars) (hp : ∀ p ∈ splitOnSep text, p ≠ []) :
    joinTagged (tchunk_text text max_chars) = text ∧
      (tchunk_text text max_chars).map Prod.snd = chunk_text text max_chars := by
  constructor
  · rw [tchunk_text, tchunkLoop_join max_chars hM (splitOnSep text) [] false hp]
    have hne : splitOnSep text ≠ [] := splitOnSep_ne_nil text
    rw [if_neg (by rintro ⟨h1, h2⟩; exact hne h1)]
    simp [hne, joinSep_splitOnSep]
  · exact tchunkLoop_map_snd max_chars (splitOnSep text) [] false

theorem tchunk_text_reconstructs_witness :
    joinTagged (tchunk_text ( "Para1.\n\nPara2 that is long.".toList) 10) =
      "Para1.\n\nPara2 that is long.".toList :=
  (tchunk_text_reconstructs ( "Para1.\n\nPara2 that is long.".toList) 10
    (by decide) (by decide)).1

/-- C3 counterexample: with M = 1 the empty text does not yield zero
chunks — a single empty chunk is yielded. -/
theorem chunk_text_empty_counterexample :
    chunk_text ([] : List Char) 1 ≠ [] := by decide

/-- C3 (amended): for every M ≥ 2, chunk_text of the empty text yields
zero chunks, with no empty-string chunk emitted (at M = 1 the code
emits one empty chunk). -/
theorem chunk_text_empty (max_chars : Nat) (hM : 2 ≤ max_chars) :
    chunk_text [] max_chars = [] := by
  show chunkLoop max_chars (splitOnSep []) [] = []
  have hsplit : splitOnSep ([] : List Char) = [[]] := rfl
  rw [hsplit]
  simp only [chunkLoop]
  rw [if_pos (by simp; omega)]
  simp [chunkLoop]

theorem chunk_text_empty_witness : chunk_text [] 4500 = [] :=
  chunk_text_empty 4500 (by decide)

/-- C4 counterexample: a single separator-free paragraph of length
exactly M = 3 does not yield exactly one chunk equal to the paragraph —
an empty chunk is flushed first. -/
theorem chunk_text_exact_fit_counterexample :
    chunk_text ( "AAA".toList) 3 ≠ [ "AAA".toList] := by decide

/-- C4 (amended): for every M ≥ 1 and every single separator-free
paragraph p, if p has length exactly M then chunk_text yields the
flushed empty accumulator followed by p unsplit, and if p has length
M + 1 it yields the flushed empty accumulator followed by exactly two
slices of sizes M and 1, in order. -/
theorem chunk_text_single_para (p : List Char) (max_chars : Nat)
    (hM : 1 ≤ max_chars) (hone : splitOnSep p = [p]) :
    (p.length = max_chars → chunk_text p max_chars = [[], p]) ∧
    (p.length = max_chars + 1 →
      chunk_text p max_chars = [[], p.take max_chars, p.drop max_chars] ∧
        (p.take max_chars).length = max_chars ∧
        (p.drop max_chars).length = 1) := by
  constructor
  · intro hlen
    have hp : p ≠ [] := by
      intro h
      rw [h] at hlen
      simp at hlen
      omega
    show chunkLoop max_chars (splitOnSep p) [] = [[], p]
    rw [hone]
    simp only [chunkLoop]
    rw [if_neg (by simp only [List.length_nil, hlen]; omega), if_neg (by omega)]
    simp [chunkLoop, hp]
  · intro hlen
    have hp : p ≠ [] := by
      intro h
      rw [h] at hlen
      simp at hlen
    have hdrop : (p.drop max_chars).length = 1 := by
      simp [List.length_drop, hlen]
    have htake : (p.take max_chars).length = max_chars := by
      simp only [List.length_take, hlen]
      omega
    refine ⟨?_, htake, hdrop⟩
    show chunkLoop max_chars (splitOnSep p) [] = _
    rw [hone]
    simp only [chunkLoop]
    rw [if_neg (by simp only [List.length_nil, hlen]; omega), if_pos (by omega)]
    have hs1 : slices max_chars p =
        p.take max_chars :: slices max_chars (p.drop max_chars) := by
      rw [slices_eq]
      rw [if_neg (by push_neg; exact ⟨by omega, hp⟩)]
    have hd_ne : p.drop max_chars ≠ [] := by
      intro h
      rw [h] at hdrop
      simp at hdrop
    have hs2 : slices max_chars (p.drop max_chars) = [p.drop max_chars] := by
      rw [slices_eq]
      rw [if_neg (by push_neg; exact ⟨by omega, hd_ne⟩)]
      have hrest : (p.drop max_chars).drop max_chars = [] := by
        apply List.eq_nil_of_length_eq_zero
        simp only [List.length_drop, hlen]
        omega
      have htk : (p.drop max_chars).take max_chars = p.drop max_chars := by
        apply List.take_of_length_le
        omega
      rw [hrest, htk, slices_eq]
      simp
    rw [hs1, hs2]
    simp [chunkLoop]

theorem chunk_text_single_para_witness :
    chunk_text ( "AAA".toList) 3 = [[], "AAA".toList] :=
  (chunk_text_single_para ( "AAA".toList) 3 (by decide) (by decide)).1 (by decide)

/-- C5: whenever the accumulator is non-empty and the next paragraph
exactly fills the remaining budget (length of accumulator plus length of
paragraph plus 2 equals M), the loop packs the paragraph into the
current accumulator joined with the separator instead of flushing. -/
theorem chunkLoop_packs_exact_fit (max_chars : Nat) (chunk p : List Char)
    (ps : List (List Char)) (_hM : 0 < max_chars) (hne : chunk ≠ [])
    (hfit : chunk.length + p.length + 2 = max_chars) :
    chunkLoop max_chars (p :: ps) chunk =
      chunkLoop max_chars ps (chunk ++ sep ++ p) := by
  simp only [chunkLoop]
  rw [if_pos (by omega), if_neg hne]

theorem chunkLoop_packs_exact_fit_witness :
    chunkLoop 4 [['B']] ['A'] = chunkLoop 4 [] (['A'] ++ sep ++ ['B']) :=
  chunkLoop_packs_exact_fit 4 ['A'] ['B'] [] (by decide) (by decide) (by decide)

/-- C6: on the text Para1. separator Para2 that is long. with M = 10 the
chunker yields exactly the chunks Para1., Para2 that, and space-is-long,
in that order. -/
theorem chunk_text_scenario :
    chunk_text ( "Para1.\n\nPara2 that is long.".toList) 10 =
      [ "Para1.".toList, "Para2 that".toList, " is long.".toList] := by decide

/-- C7: chunk_text is a total function of text and M under M > 0 — it is
defined for every finite text, yields a finite chunk list, and that
list's length is explicitly bounded by one final chunk plus one flush
per paragraph plus one slice per character. -/
theorem chunk_text_finite (text : List Char) (max_chars : Nat)
    (hM : 0 < max_chars) :
    (chunk_text text max_chars).length ≤
      1 + (splitOnSep text).length + text.length := by
  have h1 := chunkLoop_count_le max_chars hM (splitOnSep text) []
  have h2 : ((splitOnSep text).map List.length).sum ≤ text.length := by
    have h3 := joinSep_length_ge (splitOnSep text)
    rw [joinSep_splitOnSep] at h3
    exact h3
  show (chunkLoop max_chars (splitOnSep text) []).length ≤ _
  omega

theorem chunk_text_finite_witness :
    (chunk_text ( "A".toList) 1).length ≤
      1 + (splitOnSep ( "A".toList)).length + ( "A".toList : List Char).length :=
  chunk_text_finite ( "A".toList) 1 (by decide)

/-- C8: in pdf_to_audiobook, if every chunk before index k synthesizes
and chunk k's synthesis fails, the run terminates with that synthesis
failure for every export function (so the export step is never reached
and no output is written), and the result is the same for any synthesis
function that agrees on the chunks up to k (so no later chunk's
synthesis is ever consulted). -/
theorem pdf_to_audiobook_synthesis_failure (full_text : List Char)
    (synth : Nat → List Char → Except String (List Nat)) (k : Nat) (e : String)
    (hk : k < (chunk_text full_text MAX_CHARS).length)
    (hok : ∀ j, j < k →
      ∃ s, synth (1 + j) ((chunk_text full_text MAX_CHARS).getD j []) =
        Except.ok s)
    (hfail : synth (1 + k) ((chunk_text full_text MAX_CHARS).getD k []) =
      Except.error e) :
    (∀ exportFn, pdf_to_audiobook full_text synth exportFn =
        Except.error (PipeError.synthesisFailure (1 + k) e)) ∧
    (∀ synth2, (∀ j, j ≤ k → ∀ c, synth2 (1 + j) c = synth (1 + j) c) →
      ∀ exportFn, pdf_to_audiobook full_text synth2 exportFn =
        Except.error (PipeError.synthesisFailure (1 + k) e)) := by
  constructor
  · intro exportFn
    show (match processChunks synth 1 (chunk_text full_text MAX_CHARS) with
      | Except.error e => Except.error e
      | Except.ok segs =>
        match exportFn segs.flatten with
        | Except.error e => Except.error (PipeError.exportFailure e)
        | Except.ok _ => Except.ok ()) = _
    rw [processChunks_error synth _ 1 k e hk hok hfail]
  · intro synth2 hagree exportFn
    show (match processChunks synth2 1 (chunk_text full_text MAX_CHARS) with
      | Except.error e => Except.error e
      | Except.ok segs =>
        match exportFn segs.flatten with
        | Except.error e => Except.error (PipeError.exportFailure e)
        | Except.ok _ => Except.ok ()) = _
    rw [processChunks_error synth2 _ 1 k e hk ?_ ?_]
    · intro j hj
      obtain ⟨s, hs⟩ := hok j hj
      exact ⟨s, by rw [hagree j (Nat.le_of_lt hj)]; exact hs⟩
    · rw [hagree k (Nat.le_refl k)]
      exact hfail

theorem pdf_to_audiobook_synthesis_failure_witness :
    pdf_to_audiobook ( "A".toList) (fun _ _ => Except.error  "boom")
      (fun _ => Except.ok ()) =
      Except.error (PipeError.synthesisFailure 1  "boom") :=
  (pdf_to_audiobook_synthesis_failure ( "A".toList)
    (fun _ _ => Except.error  "boom") 0  "boom" (by decide)
    (fun j hj => absurd hj (Nat.not_lt_zero j)) rfl).1 (fun _ => Except.ok ())

/-- C9: extract_text returns exactly the non-empty page texts, in page
order, joined with the two-character separator — empty pages contribute
nothing, no doubled separator appears for skipped pages, and a document
with no extractable text yields the empty string. -/
theorem extract_text_filter_join (pages : List (List Char)) :
    extract_text pages = joinSep (pages.filter (fun t => t ≠ [])) := by
  rw [extract_text, foldl_append_filter]
  simp

/-- C10: every non-empty chunk yielded by chunk_text is a contiguous
substring of the input text. -/
theorem chunk_text_chunks_contiguous (text : List Char) (max_chars : Nat)
    (c : List Char) (_hM : 0 < max_chars) (hc : c ∈ chunk_text text max_chars)
    (hne : c ≠ []) : ∃ l r, l ++ c ++ r = text := by
  have hshape := chunkLoop_shape max_chars (splitOnSep text) (splitOnSep text)
    [] ⟨[], rfl⟩ (Or.inl rfl) c hc
  rcases hshape with h | ⟨pre, mid, suf, hps, hcj⟩ | ⟨p, hp, i, hi⟩
  · exact absurd h hne
  · obtain ⟨l, r, hlr⟩ := joinSep_middle_part pre mid suf
    rw [← hps, joinSep_splitOnSep] at hlr
    exact ⟨l, r, by rw [hcj]; exact hlr⟩
  · obtain ⟨s, t, hst⟩ := List.append_of_mem hp
    obtain ⟨l1, r1, h1⟩ := joinSep_middle_part s [p] t
    have hsingle : joinSep [p] = p := by simp [joinSep]
    rw [hsingle] at h1
    have hst2 : s ++ [p] ++ t = splitOnSep text := by
      rw [hst]
      simp
    rw [hst2, joinSep_splitOnSep] at h1
    obtain ⟨l2, r2, h2⟩ := drop_take_part p i max_chars
    refine ⟨l1 ++ l2, r2 ++ r1, ?_⟩
    rw [hi]
    calc l1 ++ l2 ++ (p.drop i).take max_chars ++ (r2 ++ r1)
        = l1 ++ (l2 ++ (p.drop i).take max_chars ++ r2) ++ r1 := by
          simp [List.append_assoc]
      _ = l1 ++ p ++ r1 := by rw [h2]
      _ = text := h1

theorem chunk_text_chunks_contiguous_witness :
    ∃ l r, l ++ "Para2 that".toList ++ r =
      "Para1.\n\nPara2 that is long.".toList :=
  chunk_text_chunks_contiguous ( "Para1.\n\nPara2 that is long.".toList) 10
    ( "Para2 that".toList) (by decide) (by decide) (by decide)

end PdfToAudiobook
